import Mathlib

/-!
Shallow embedding of the geo_study analysis pipeline (TypeScript sources:
keywordExtractor, searchQuestions, runAnalysis, htmlAnalyzer) together with
theorems checking the natural-language specification against it.

Modelling conventions: JavaScript strings are Lean `String`/`List Char`
(UTF-16 length and code-unit positions coincide with character counts for
every string handled here, all of which lie in the BMP); JavaScript numbers
are `ℚ`/`ℤ`/`ℕ` with exact arithmetic; `Array.prototype.sort`, which is
stable, is modelled by `List.insertionSort`, which is stable; the insertion
order of a JavaScript `Map`/`Set` is modelled by association lists.
-/

/-! ### Data model (analysisTypes.ts) -/

/-- Mirrors `AnalysisMeta`: six nullable string fields. -/
structure AnalysisMeta where
  title : Option String
  description : Option String
  keywords : Option String
  ogTitle : Option String
  ogDescription : Option String
  canonical : Option String
deriving DecidableEq

/-- Mirrors `SearchSource = 'google' | 'naver' | 'community'`. -/
inductive SearchSource where
  | google
  | naver
  | community
deriving DecidableEq

/-- Mirrors `SearchQuestion {source, text, url?}`. -/
structure SearchQuestion where
  source : SearchSource
  text : String
  url : Option String
deriving DecidableEq

/-- Mirrors `SeedKeyword {value, score}`; the score is an exact rational. -/
structure SeedKeyword where
  value : String
  score : ℚ
deriving DecidableEq

/-! ### Character and string utilities shared by the embedded functions -/

/-- Character class of the regex `[0-9a-zA-Z가-힣]` in `keywordExtractor`:
ASCII digits, ASCII letters, and Hangul syllables U+AC00..U+D7A3. -/
def allowedChar (c : Char) : Bool :=
  decide ((48 ≤ c.toNat ∧ c.toNat ≤ 57) ∨ (97 ≤ c.toNat ∧ c.toNat ≤ 122) ∨
    (65 ≤ c.toNat ∧ c.toNat ≤ 90) ∨ (0xAC00 ≤ c.toNat ∧ c.toNat ≤ 0xD7A3))

/-- Replacement of every maximal run of characters satisfying `bad` by a
single space, as performed by `replace(/[^0-9a-zA-Z가-힣]+/g, ' ')` and
`replace(/\s+/g, ' ')`. The flag records whether the previous character was
part of a run already replaced. -/
def collapseRuns (bad : Char → Bool) : List Char → Bool → List Char
  | [], _ => []
  | c :: cs, inRun =>
    if bad c then
      if inRun then collapseRuns bad cs true
      else ' ' :: collapseRuns bad cs true
    else c :: collapseRuns bad cs false

/-- Splitting a character list into its maximal runs of characters
satisfying `keep`, dropping the empty pieces: the model of
`split(/\s+/).filter(t => t.length > 0)` (with `keep` = not whitespace) and
of splitting on runs of separator characters in general. The accumulator
holds the current run, reversed. -/
def splitRunsAux (keep : Char → Bool) : List Char → List Char → List (List Char)
  | [], acc => if acc.isEmpty then [] else [acc.reverse]
  | c :: cs, acc =>
    if keep c then splitRunsAux keep cs (c :: acc)
    else if acc.isEmpty then splitRunsAux keep cs []
    else acc.reverse :: splitRunsAux keep cs []

/-- Maximal runs of `keep`-characters of a list. -/
def splitRuns (keep : Char → Bool) (l : List Char) : List (List Char) :=
  splitRunsAux keep l []

/-- JavaScript `String.prototype.trim` modelled on character lists:
whitespace is stripped from both ends. -/
def trimChars (l : List Char) : List Char :=
  ((l.dropWhile Char.isWhitespace).reverse.dropWhile Char.isWhitespace).reverse

/-- Bool test that `l` starts with the pattern `p` (JS `startsWith`). -/
def charsStartWith : List Char → List Char → Bool
  | [], _ => true
  | _ :: _, [] => false
  | p :: ps, c :: cs => p = c && charsStartWith ps cs

/-- Regex `/^\d+$/`: at least one character and all characters digits. -/
def onlyDigits (t : String) : Bool :=
  !t.data.isEmpty && t.data.all Char.isDigit

/-! ### Tokenizer (keywordExtractor.ts, steps (2) and (3)) -/

/-- The fixed stop-word set `STOP_WORDS` of `keywordExtractor.ts`, verbatim. -/
def STOP_WORDS : List String :=
  ["그리고", "하지만", "그러나", "그러면서", "또는", "또한",
   "이것", "저것", "그것", "있는", "하는", "되는", "통해", "대한", "위한", "같은", "많은",
   "the", "is", "are", "and", "or", "for", "with", "this", "that", "from", "into", "about", "your", "our",
   "has", "have", "can", "will", "been", "more", "when", "they", "them", "their", "what", "which"]

/-- The token filter of `keywordExtractor.ts`: three early returns dropping
length-1 tokens, all-digit tokens, and tokens of length at least 30. -/
def tokenFilter (t : String) : Bool :=
  if t.length = 1 then false
  else if onlyDigits t then false
  else if 30 ≤ t.length then false
  else true

/-- Steps (2) and (3) of `extractSeedKeywords`: lowercase, replace runs of
characters outside `[0-9a-zA-Z가-힣]` by a single space, split on
whitespace runs dropping empty pieces, apply `tokenFilter`, then drop
stop words. -/
def tokenize (s : String) : List String :=
  let lowered := s.data.map Char.toLower
  let cleaned := collapseRuns (fun c => !allowedChar c) lowered false
  let rawTokens := (splitRuns (fun c => !c.isWhitespace) cleaned).map fun l => (⟨l⟩ : String)
  let filtered := rawTokens.filter tokenFilter
  filtered.filter fun t => decide (t ∉ STOP_WORDS)

/-- Modelled from the spec (§4.1): one-pass characterization of the
tokenizer — split the lowercased text on maximal runs of characters that
are not digits, letters or Hangul syllables, and keep exactly the tokens
that are not of length 1, not all digits, of length below 30, and not stop
words. Used as the comparison point for the tokenizer refinement claim. -/
def tokenizeSpec (s : String) : List String :=
  ((splitRuns allowedChar (s.data.map Char.toLower)).map fun l => (⟨l⟩ : String)).filter
    fun t => !(decide (t.length = 1) || onlyDigits t || decide (30 ≤ t.length) ||
      decide (t ∈ STOP_WORDS))

/-! ### Keyword extractor (keywordExtractor.ts) -/

/-- One step of the frequency count of `extractSeedKeywords`, modelling the
JavaScript `Map`: an existing key is incremented in place, a new key is
appended at the end (insertion order). -/
def bumpCount : List (String × ℕ) → String → List (String × ℕ)
  | [], t => [(t, 1)]
  | (s, c) :: rest, t =>
    if s = t then (s, c + 1) :: rest else (s, c) :: bumpCount rest t

/-- The frequency map of `extractSeedKeywords`, as an association list in
first-seen key order (the iteration order of a JavaScript `Map`). -/
def countTokens (tokens : List String) : List (String × ℕ) :=
  tokens.foldl bumpCount []

/-- The comparator `(a, b) => b[1] - a[1]`: descending count order. -/
def countDescRel (a b : String × ℕ) : Prop := b.2 ≤ a.2

instance : DecidableRel countDescRel := fun a b => Nat.decLe b.2 a.2

instance : IsTotal (String × ℕ) countDescRel := ⟨fun a b => Nat.le_total b.2 a.2⟩

instance : IsTrans (String × ℕ) countDescRel :=
  ⟨fun _ _ _ hab hbc => le_trans hbc hab⟩

/-- Steps (4) and (5) of `extractSeedKeywords` on an already tokenized
input: count occurrences in first-seen order, sort by descending count
(stable, as `Array.prototype.sort` is), take the first 10, and score each
entry by its count divided by the count of the first entry (1 if empty). -/
def seedsOfTokens (tokens : List String) : List SeedKeyword :=
  let entries := countTokens tokens
  let sorted := List.insertionSort countDescRel entries
  let topEntries := sorted.take 10
  let maxCount := match topEntries.head? with
    | some e => e.2
    | none => 1
  topEntries.map fun e => ⟨e.1, (e.2 : ℚ) / (maxCount : ℚ)⟩

/-- Step (1) of `extractSeedKeywords`: the assembled text — title, ogTitle,
description, ogDescription (each only when non-null and non-empty), the
headings, and the first 800 characters of the body text (only when
non-empty), joined by single spaces. -/
def assembleText (meta : AnalysisMeta) (headings : List String) (contentText : String) : String :=
  let optPart : Option String → List String := fun o =>
    match o with
    | none => []
    | some s => if s = "" then [] else [s]
  let parts : List String :=
    optPart meta.title ++ optPart meta.ogTitle ++ optPart meta.description ++
      optPart meta.ogDescription ++ headings ++
      (if contentText = "" then [] else [(⟨contentText.data.take 800⟩ : String)])
  String.intercalate " " parts

/-- Mirrors `extractSeedKeywords(meta, headings, contentText)` of
`keywordExtractor.ts`: assemble the text, return `[]` when it is blank,
tokenize, return `[]` when no token survives, then rank and score. -/
def extractSeedKeywords (meta : AnalysisMeta) (headings : List String)
    (contentText : String) : List SeedKeyword :=
  let rawText := assembleText meta headings contentText
  if trimChars rawText.data = [] then []
  else
    let tokens := tokenize rawText
    if tokens = [] then []
    else seedsOfTokens tokens

/-- Modelled from the spec (§3 invariants): the distinct tokens in the
order in which they are first encountered. Comparison point for the
stable-ranking claim. -/
def firstSeen (tokens : List String) : List String :=
  tokens.foldl (fun acc t => if t ∈ acc then acc else acc ++ [t]) []

/-! ### Coverage scorer (runAnalysis.ts, calculateQuestionCoverage) -/

/-- The coverage tokenization: lowercase, split on whitespace runs, keep
tokens of length at least 2 (no stop-word filtering). -/
def simpleTokenize (s : String) : List String :=
  ((splitRuns (fun c => !c.isWhitespace) (s.data.map Char.toLower)).map
    fun l => (⟨l⟩ : String)).filter fun t => decide (2 ≤ t.length)

/-- The inner loop of `calculateQuestionCoverage`: a search-question text
`sq` is covered when some page question shares at least one coverage token
with it (the loop breaks at the first matching page question). -/
def isCoveredBy (pageQuestions : List String) (sq : String) : Bool :=
  pageQuestions.any fun pq =>
    decide (1 ≤ ((simpleTokenize sq).filter fun t => decide (t ∈ simpleTokenize pq)).length)

/-- Mirrors `calculateQuestionCoverage(pageQuestions, searchQuestions)`:
0 when there are no search questions, otherwise the number of covered
search questions divided by the total number of search questions. -/
def calculateQuestionCoverage (pageQuestions : List String)
    (searchQuestions : List SearchQuestion) : ℚ :=
  if searchQuestions.isEmpty then 0
  else
    let coveredCount := searchQuestions.countP fun q => isCoveredBy pageQuestions q.text
    (coveredCount : ℚ) / (searchQuestions.length : ℚ)

/-! ### Structure scorer and composer (runAnalysis.ts) -/

/-- JavaScript truthiness-plus-trim test `x && x.trim().length > 0` used on
the nullable meta fields. -/
def hasText (o : Option String) : Bool :=
  match o with
  | none => false
  | some s => if s = "" then false else decide (0 < (trimChars s.data).length)

/-- Mirrors `calculateStructureScore(meta, headings, pageQuestions)`: base
40, +10 for a present non-blank title, +10 for a present non-blank
description, +10 for at least 2 headings, +10 for at least 3 page
questions, clamped to [0, 100]. -/
def calculateStructureScore (meta : AnalysisMeta) (headings : List String)
    (pageQuestions : List String) : ℤ :=
  let score : ℤ := 40
  let score := if hasText meta.title then score + 10 else score
  let score := if hasText meta.description then score + 10 else score
  let score := if 2 ≤ headings.length then score + 10 else score
  let score := if 3 ≤ pageQuestions.length then score + 10 else score
  min 100 (max 0 score)

/-- JavaScript `Math.round`: the floor of the argument plus one half
(round half toward positive infinity). -/
def jsRound (x : ℚ) : ℤ := ⌊x + 1 / 2⌋

/-- The score composition of `runAnalysis` (step 5): the coverage ratio is
scaled to a percentage and the final score is
`Math.round(structureScore * 0.4 + questionCoverageScore * 0.6)`. -/
def composeFinalScore (structureScore : ℤ) (questionCoverage : ℚ) : ℤ :=
  let questionCoverageScore := questionCoverage * 100
  jsRound ((structureScore : ℚ) * 0.4 + questionCoverageScore * 0.6)

/-- Modelled from the spec (§4.7): round-half-up rounding — the floor,
plus one when the fractional part is at least one half. Comparison point
for the composer claim. -/
def roundHalfUp (x : ℚ) : ℤ :=
  if 1 / 2 ≤ x - ⌊x⌋ then ⌊x⌋ + 1 else ⌊x⌋

/-! ### Question dedup and search-question gathering (searchQuestions.ts) -/

/-- The dedup key of `dedupeQuestions`: lowercase, collapse whitespace runs
to one space, trim. -/
def normalizeQText (s : String) : String :=
  ⟨trimChars (collapseRuns Char.isWhitespace (s.data.map Char.toLower) false)⟩

/-- The loop of `dedupeQuestions`, with the set of already seen normalized
texts made explicit (a JavaScript `Set` only ever queried for membership). -/
def dedupeAux : List SearchQuestion → List String → List SearchQuestion
  | [], _ => []
  | q :: rest, seen =>
    let normalizedText := normalizeQText q.text
    if normalizedText ∈ seen then dedupeAux rest seen
    else q :: dedupeAux rest (normalizedText :: seen)

/-- Mirrors `dedupeQuestions(questions)`: keep the first question for each
normalized text. -/
def dedupeQuestions (questions : List SearchQuestion) : List SearchQuestion :=
  dedupeAux questions []

/-- Modelled from the spec (§4.5): keep only the first occurrence per
normalized-text key, preserving order. Comparison point for the dedup
claim. -/
def firstOccurrences : List SearchQuestion → List SearchQuestion
  | [] => []
  | q :: rest =>
    q :: firstOccurrences (rest.filter fun q2 =>
      !(normalizeQText q2.text == normalizeQText q.text))
termination_by l => l.length
decreasing_by
  simp only [List.length_cons]
  exact Nat.lt_succ_of_le (List.length_filter_le _ _)

/-- Characters left unescaped by the platform function `encodeURIComponent`:
ASCII letters and digits and `- _ . ! ~ * ( )` and the apostrophe
(code 39). -/
def encodeSafeChar (c : Char) : Bool :=
  c.isAlphanum || c = '-' || c = '_' || c = '.' || c = '!' || c = '~' ||
    c = '*' || c.toNat = 39 || c = '(' || c = ')'

/-- UTF-8 encoding of a single character, as a list of byte values. -/
def utf8Bytes (c : Char) : List ℕ :=
  let n := c.toNat
  if n < 0x80 then [n]
  else if n < 0x800 then [0xC0 + n / 0x40, 0x80 + n % 0x40]
  else if n < 0x10000 then
    [0xE0 + n / 0x1000, 0x80 + n / 0x40 % 0x40, 0x80 + n % 0x40]
  else
    [0xF0 + n / 0x40000, 0x80 + n / 0x1000 % 0x40, 0x80 + n / 0x40 % 0x40,
      0x80 + n % 0x40]

/-- Uppercase hexadecimal digit for a value below 16. -/
def hexDigitChar (n : ℕ) : Char :=
  if n < 10 then Char.ofNat (48 + n) else Char.ofNat (55 + n)

/-- Percent-escape of one byte value: `%` followed by two uppercase
hexadecimal digits. -/
def percentByte (b : ℕ) : List Char :=
  ['%', hexDigitChar (b / 16), hexDigitChar (b % 16)]

/-- Model of the JavaScript platform function `encodeURIComponent` (used by
`fetchFromTavily` for the mock urls): safe characters pass through, every
other character is percent-escaped byte by byte in UTF-8. -/
def encodeURIComponent (s : String) : String :=
  ⟨s.data.flatMap fun c =>
    if encodeSafeChar c then [c] else (utf8Bytes c).flatMap percentByte⟩

/-- Mirrors `fetchFromTavily(keyword, source)`: the stub provider returning
three templated questions for the keyword (the promise always resolves, so
the surrounding try/catch is dead and the function is pure). -/
def fetchFromTavily (keyword : String) (source : SearchSource) : List SearchQuestion :=
  let url := "https://example.com/search?q=" ++ encodeURIComponent keyword
  [⟨source, keyword ++ "는 얼마나 자주 교체해야 하나요?", some url⟩,
   ⟨source, keyword ++ " 비용은 어느 정도인가요?", some url⟩,
   ⟨source, keyword ++ "를 선택할 때 고려해야 할 점은 무엇인가요?", some url⟩]

/-- The comparator `(a, b) => b.score - a.score` of `fetchSearchQuestions`:
descending score order. -/
def scoreDescRel (a b : SeedKeyword) : Prop := b.score ≤ a.score

instance : DecidableRel scoreDescRel := fun a b =>
  inferInstanceAs (Decidable (b.score ≤ a.score))

/-- The questions accumulated by the keyword loop of
`fetchSearchQuestions`: sort the seed keywords by descending score
(stable), take the top 5, and concatenate the provider results in keyword
order (a per-keyword failure would be skipped, but the stub never fails). -/
def gatherQuestions (seedKeywords : List SeedKeyword) : List SearchQuestion :=
  ((List.insertionSort scoreDescRel seedKeywords).take 5).flatMap fun k =>
    fetchFromTavily k.value SearchSource.google

/-- Mirrors `fetchSearchQuestions(seedKeywords, maxPerKeyword = 5)`: empty
input short-circuits, otherwise gather per keyword, dedupe, and drop
questions whose raw text length is at most 5. The `maxPerKeyword`
parameter is never read by the body. -/
def fetchSearchQuestions (seedKeywords : List SeedKeyword) (maxPerKeyword : ℕ) :
    List SearchQuestion :=
  if seedKeywords.isEmpty then []
  else
    let allQuestions := gatherQuestions seedKeywords
    let dedupedQuestions := dedupeQuestions allQuestions
    dedupedQuestions.filter fun q => decide (5 < q.text.length)

/-! ### URL normalization (htmlAnalyzer.ts, normalizeUrl) -/

/-- Model of the parsed state of a WHATWG `URL` for the fragment of the
grammar exercised here: a special scheme, a host without userinfo or port,
a path, and an optional raw query string. -/
structure URLModel where
  scheme : String
  host : String
  path : String
  query : Option String
deriving DecidableEq

/-- Splitting a character list at every occurrence of `sep`, keeping empty
pieces (JavaScript `split` on a single character). -/
def splitOnChar (sep : Char) : List Char → List (List Char)
  | [] => [[]]
  | c :: cs =>
    if c = sep then [] :: splitOnChar sep cs
    else
      match splitOnChar sep cs with
      | [] => [[c]]
      | p :: ps => (c :: p) :: ps

/-- Hexadecimal value of a character, if it is a hexadecimal digit. -/
def hexVal (c : Char) : Option ℕ :=
  if 48 ≤ c.toNat ∧ c.toNat ≤ 57 then some (c.toNat - 48)
  else if 65 ≤ c.toNat ∧ c.toNat ≤ 70 then some (c.toNat - 55)
  else if 97 ≤ c.toNat ∧ c.toNat ≤ 102 then some (c.toNat - 87)
  else none

/-- Form-urlencoded decoding of `URLSearchParams` parsing, modelled for
plus signs and ASCII percent-escapes (the only escapes arising here);
a malformed or non-ASCII escape is left as literal text. -/
def decodeFormChars : List Char → List Char
  | [] => []
  | '%' :: a :: b :: rest =>
    match hexVal a, hexVal b with
    | some ha, some hb =>
      if ha * 16 + hb < 0x80 then Char.ofNat (ha * 16 + hb) :: decodeFormChars rest
      else '%' :: decodeFormChars (a :: b :: rest)
    | _, _ => '%' :: decodeFormChars (a :: b :: rest)
  | c :: rest => (if c = '+' then ' ' else c) :: decodeFormChars rest

/-- Bytes left unescaped by the form-urlencoded serializer of
`URLSearchParams.toString`: ASCII letters and digits and `* - . _`
(a space becomes `+`, everything else is percent-escaped — in particular a
slash becomes `%2F`). -/
def formSafeChar (c : Char) : Bool :=
  c.isAlphanum || c = '*' || c = '-' || c = '.' || c = '_'

/-- Form-urlencoded serialization of one string. -/
def formEncode (s : String) : String :=
  ⟨s.data.flatMap fun c =>
    if c = ' ' then ['+']
    else if formSafeChar c then [c]
    else (utf8Bytes c).flatMap percentByte⟩

/-- Model of `new URLSearchParams(query)`: split on `&`, skip empty
pieces, split each piece at its first `=` (value empty when absent), and
form-decode names and values. -/
def parseParams (query : String) : List (String × String) :=
  ((splitOnChar '&' query.data).filter fun piece => !piece.isEmpty).map fun piece =>
    let name := piece.takeWhile fun c => c ≠ '='
    let value := if name.length = piece.length then [] else piece.drop (name.length + 1)
    (⟨decodeFormChars name⟩, ⟨decodeFormChars value⟩)

/-- Model of `URLSearchParams.toString`: `name=value` pairs joined by `&`,
names and values form-encoded. -/
def serializeParams (params : List (String × String)) : String :=
  String.intercalate "&" (params.map fun p => formEncode p.1 ++ "=" ++ formEncode p.2)

/-- Model of the parsing done by `new URL(url)` for the fragment handled
by this model: `scheme://host/path?query` with the scheme and host
lowercased. Inputs outside the fragment (no `://`, empty host, userinfo,
port, fragment, or whitespace in the host) are treated as a parse
failure. -/
def parseURL (url : String) : Option URLModel :=
  let cs := url.data
  let schemeCs := cs.takeWhile fun c => c ≠ ':'
  let schemeOk : Bool :=
    match schemeCs with
    | [] => false
    | c :: rest => c.isAlpha && rest.all fun d => d.isAlphanum || d = '+' || d = '-' || d = '.'
  if !schemeOk || cs.contains '#' then none
  else
    match cs.drop schemeCs.length with
    | ':' :: '/' :: '/' :: rest =>
      let authority := rest.takeWhile fun c => c ≠ '/' && c ≠ '?'
      if authority.isEmpty ||
          authority.any (fun c => c = '@' || c = ':' || c.isWhitespace) then none
      else
        let afterHost := rest.drop authority.length
        let pathCs := afterHost.takeWhile fun c => c ≠ '?'
        let query : Option String :=
          match afterHost.drop pathCs.length with
          | [] => none
          | _ :: qs => some ⟨qs⟩
        some ⟨⟨schemeCs.map Char.toLower⟩, ⟨authority.map Char.toLower⟩,
          if pathCs.isEmpty then "/" else ⟨pathCs⟩, query⟩
    | _ => none

/-- Model of `URL.toString` for this fragment. -/
def serializeURL (u : URLModel) : String :=
  u.scheme ++ "://" ++ u.host ++ u.path ++
    (match u.query with
     | none => ""
     | some q => "?" ++ q)

/-- Mirrors `normalizeUrl(url)` of `htmlAnalyzer.ts`: parse; force the
scheme to https; strip one leading `www.` from the host; drop query
parameters whose key starts with `utm_` and re-serialize the remaining
ones (the serializer percent-escapes as `URLSearchParams.toString` does);
then drop one trailing slash of the serialized URL unless the path is the
root. A parse failure returns the input unchanged. -/
def normalizeUrl (url : String) : String :=
  match parseURL url with
  | none => url
  | some urlObj =>
    let urlObj : URLModel := ⟨"https", urlObj.host, urlObj.path, urlObj.query⟩
    let hostname :=
      if charsStartWith "www.".data urlObj.host.data then (⟨urlObj.host.data.drop 4⟩ : String)
      else urlObj.host
    let urlObj : URLModel := ⟨urlObj.scheme, hostname, urlObj.path, urlObj.query⟩
    let params := parseParams (match urlObj.query with | none => "" | some q => q)
    let params := params.filter fun p => !charsStartWith "utm_".data p.1.data
    let search := serializeParams params
    let urlObj : URLModel :=
      ⟨urlObj.scheme, urlObj.host, urlObj.path, if search = "" then none else some search⟩
    let normalized := serializeURL urlObj
    if (normalized.data.getLast? = some '/') && urlObj.path ≠ "/" then
      ⟨normalized.data.dropLast⟩
    else normalized

/-! ### Theorems -/

/-- JavaScript rounding (floor of the value plus one half) agrees with
round-half-up rounding everywhere. -/
theorem jsRound_eq_roundHalfUp (x : ℚ) : jsRound x = roundHalfUp x := by
  unfold jsRound roundHalfUp
  have h1 : (⌊x⌋ : ℚ) ≤ x := Int.floor_le x
  have h2 : x < ⌊x⌋ + 1 := Int.lt_floor_add_one x
  rcases le_or_lt (1 / 2 : ℚ) (x - ⌊x⌋) with h | h
  · rw [if_pos h]
    refine Int.floor_eq_iff.mpr ⟨?_, ?_⟩ <;> push_cast <;> linarith
  · rw [if_neg (not_le.mpr h)]
    refine Int.floor_eq_iff.mpr ⟨?_, ?_⟩ <;> push_cast <;> linarith

/-- C1: for every structure score `s` and coverage ratio `r`, the composed
final score equals `round(s * 0.4 + (r * 100) * 0.6)` with round-half-up
rounding of the non-negative value; in particular for structure score 70
and coverage percentage 50 (ratio 1/2) the final score is 58. -/
theorem composeFinalScore_spec :
    (∀ (s : ℤ) (r : ℚ),
      composeFinalScore s r = roundHalfUp ((s : ℚ) * 0.4 + r * 100 * 0.6))
    ∧ composeFinalScore 70 (1 / 2) = 58 := by
  constructor
  · intro s r
    exact jsRound_eq_roundHalfUp _
  · show jsRound _ = 58
    have hx : ((70 : ℤ) : ℚ) * 0.4 + (1 : ℚ) / 2 * 100 * 0.6 + 1 / 2 = 117 / 2 := by
      norm_num
    unfold jsRound
    rw [hx]
    norm_num [Int.floor_eq_iff]

/-- C3: the structure score is the base 40 plus 10 for each satisfied
condition (non-blank title, non-blank description, at least 2 headings, at
least 3 page questions), clamped to [0, 100]; it always lies in [40, 100],
over all 16 combinations of the four conditions. -/
theorem calculateStructureScore_spec :
    ∀ (meta : AnalysisMeta) (headings pageQuestions : List String),
      calculateStructureScore meta headings pageQuestions =
        min 100 (max 0 (40 + (if hasText meta.title then 10 else 0) +
          (if hasText meta.description then 10 else 0) +
          (if 2 ≤ headings.length then 10 else 0) +
          (if 3 ≤ pageQuestions.length then 10 else 0)))
      ∧ calculateStructureScore meta headings pageQuestions =
        40 + (if hasText meta.title then 10 else 0) +
          (if hasText meta.description then 10 else 0) +
          (if 2 ≤ headings.length then 10 else 0) +
          (if 3 ≤ pageQuestions.length then 10 else 0)
      ∧ 40 ≤ calculateStructureScore meta headings pageQuestions
      ∧ calculateStructureScore meta headings pageQuestions ≤ 100 := by
  intro meta headings pageQuestions
  simp only [calculateStructureScore]
  split_ifs <;> norm_num

/-- C10: the `maxPerKeyword` parameter of `fetchSearchQuestions` never
influences the result, and no per-keyword cap is applied: the result is
always the dedup-and-length filter of the full per-keyword provider
output. -/
theorem fetchSearchQuestions_ignores_maxPerKeyword :
    (∀ (seedKeywords : List SeedKeyword) (m : ℕ),
      fetchSearchQuestions seedKeywords m = fetchSearchQuestions seedKeywords 5)
    ∧ ∀ (seedKeywords : List SeedKeyword) (m : ℕ),
      fetchSearchQuestions seedKeywords m =
        (dedupeQuestions (gatherQuestions seedKeywords)).filter
          fun q => decide (5 < q.text.length) := by
  constructor
  · intro seedKeywords m
    rfl
  · intro seedKeywords m
    cases seedKeywords with
    | nil => rfl
    | cons k ks => rfl

/-- C8 counterexample: on the documented input pair the deduper does not
return only the first question — the normalized keys differ because the
space before the question mark survives whitespace collapsing. -/
theorem dedupe_example_counterexample :
    dedupeQuestions [⟨SearchSource.google, "What is X?", none⟩,
        ⟨SearchSource.google, "what   is x ?", none⟩] ≠
      [⟨SearchSource.google, "What is X?", none⟩] := by decide

/-- C8 amended: on the input pair "What is X?", "what   is x ?" the deduper
returns both questions in their original order (their normalized texts
"what is x?" and "what is x ?" differ); on the variant pair "What is X?",
"what   is x?" — differing only in case and internal whitespace — it
retains exactly the first occurrence. -/
theorem dedupe_example_amended :
    dedupeQuestions [⟨SearchSource.google, "What is X?", none⟩,
        ⟨SearchSource.google, "what   is x ?", none⟩] =
      [⟨SearchSource.google, "What is X?", none⟩,
       ⟨SearchSource.google, "what   is x ?", none⟩]
    ∧ dedupeQuestions [⟨SearchSource.google, "What is X?", none⟩,
        ⟨SearchSource.google, "what   is x?", none⟩] =
      [⟨SearchSource.google, "What is X?", none⟩] :=
  ⟨by decide, by decide⟩

/-- C9 counterexample: `normalizeUrl` does not map the documented input to
"https://example.com/path?keep=1" — the trailing-slash strip inspects the
serialized URL (which ends in the query, not the path), and re-serializing
the query percent-escapes the slash in the kept value. -/
theorem normalizeUrl_example_counterexample :
    normalizeUrl "HTTPS://WWW.Example.com/path/?utm_source=a&keep=1/" ≠
      "https://example.com/path?keep=1" := by decide

/-- C9 amended: on the documented input the output is
"https://example.com/path/?keep=1%2F" — scheme forced to https, leading
"www." stripped, utm_ query parameters removed; the path-final slash is
kept because the serialized URL ends with the query, and the slash inside
the kept query value is percent-escaped on re-serialization; inputs the
URL parser rejects pass through unchanged. -/
theorem normalizeUrl_example_amended :
    normalizeUrl "HTTPS://WWW.Example.com/path/?utm_source=a&keep=1/" =
      "https://example.com/path/?keep=1%2F"
    ∧ ∀ url : String, parseURL url = none → normalizeUrl url = url := by
  constructor
  · decide
  · intro url h
    unfold normalizeUrl
    rw [h]

/-- Witness for the amended C9 theorem at a concrete malformed input. -/
theorem normalizeUrl_example_amended_witness :
    parseURL "no scheme here" = none ∧ normalizeUrl "no scheme here" = "no scheme here" :=
  ⟨by decide, normalizeUrl_example_amended.2 "no scheme here" (by decide)⟩

/-- A filter has at least one element exactly when some member of the list
satisfies the predicate. -/
theorem one_le_length_filter {α : Type} (p : α → Bool) (l : List α) :
    1 ≤ (l.filter p).length ↔ ∃ a ∈ l, p a = true := by
  rw [show (1 ≤ (l.filter p).length) = (0 < (l.filter p).length) from rfl,
    ← List.countP_eq_length_filter, List.countP_pos]

/-- The covered test of the coverage loop agrees with its existential
description: some page question shares some coverage token. -/
theorem isCoveredBy_iff (pageQuestions : List String) (sq : String) :
    isCoveredBy pageQuestions sq = true ↔
      ∃ p ∈ pageQuestions, ∃ t ∈ simpleTokenize sq, t ∈ simpleTokenize p := by
  simp only [isCoveredBy, List.any_eq_true, decide_eq_true_eq, one_le_length_filter,
    List.mem_filter]

/-- Pointwise Bool form of `isCoveredBy_iff`. -/
theorem isCoveredBy_eq_decide (pageQuestions : List String) (sq : String) :
    isCoveredBy pageQuestions sq =
      decide (∃ p ∈ pageQuestions, ∃ t ∈ simpleTokenize sq, t ∈ simpleTokenize p) := by
  by_cases h : ∃ p ∈ pageQuestions, ∃ t ∈ simpleTokenize sq, t ∈ simpleTokenize p
  · rw [(isCoveredBy_iff pageQuestions sq).mpr h, decide_eq_true h]
  · rw [decide_eq_false h]
    rcases hb : isCoveredBy pageQuestions sq with _ | _
    · rfl
    · exact absurd ((isCoveredBy_iff pageQuestions sq).mp hb) h

/-- C2: the coverage ratio is 0 when either question list is empty;
otherwise a search question counts as covered exactly when its coverage
token set (lowercase, whitespace split, length at least 2) meets that of
some page question, the ratio is covered count over total count, and the
result always lies in [0, 1]. -/
theorem calculateQuestionCoverage_spec :
    ∀ (pageQuestions : List String) (searchQuestions : List SearchQuestion),
      (searchQuestions = [] → calculateQuestionCoverage pageQuestions searchQuestions = 0)
      ∧ (pageQuestions = [] → calculateQuestionCoverage pageQuestions searchQuestions = 0)
      ∧ (searchQuestions ≠ [] →
          calculateQuestionCoverage pageQuestions searchQuestions =
            (searchQuestions.countP (fun q =>
              decide (∃ p ∈ pageQuestions, ∃ t ∈ simpleTokenize q.text,
                t ∈ simpleTokenize p)) : ℚ) / (searchQuestions.length : ℚ))
      ∧ 0 ≤ calculateQuestionCoverage pageQuestions searchQuestions
      ∧ calculateQuestionCoverage pageQuestions searchQuestions ≤ 1 := by
  intro pageQuestions searchQuestions
  have hcount : ∀ l : List SearchQuestion,
      l.countP (fun q => isCoveredBy pageQuestions q.text) =
        l.countP (fun q => decide (∃ p ∈ pageQuestions, ∃ t ∈ simpleTokenize q.text,
          t ∈ simpleTokenize p)) := by
    intro l
    congr 1
    funext q
    exact isCoveredBy_eq_decide pageQuestions q.text
  refine ⟨?_, ?_, ?_, ?_, ?_⟩
  · intro h
    subst h
    rfl
  · intro h
    subst h
    unfold calculateQuestionCoverage
    rcases searchQuestions with _ | ⟨q, qs⟩
    · rfl
    · have hz : ∀ l : List SearchQuestion,
          l.countP (fun q => isCoveredBy ([] : List String) q.text) = 0 := by
        intro l
        simp [List.countP_eq_zero, isCoveredBy]
      simp only [List.isEmpty_cons, if_false, Bool.false_eq_true, hz]
      norm_num
  · intro h
    unfold calculateQuestionCoverage
    rw [if_neg (by simpa [List.isEmpty_iff] using h), hcount]
  · unfold calculateQuestionCoverage
    split
    · exact le_refl 0
    · positivity
  · unfold calculateQuestionCoverage
    split
    · norm_num
    · rename_i hne
      have hlen : 0 < (searchQuestions.length : ℚ) := by
        have : searchQuestions ≠ [] := by simpa [List.isEmpty_iff] using hne
        have : 0 < searchQuestions.length := List.length_pos.mpr this
        exact_mod_cast this
      rw [div_le_one hlen]
      exact_mod_cast List.countP_le_length _

/-- Witness for the coverage theorem at a concrete non-empty input: one
page question and one search question sharing the token "ab". -/
theorem calculateQuestionCoverage_spec_witness :
    ([⟨SearchSource.google, "ab", none⟩] : List SearchQuestion) ≠ []
    ∧ calculateQuestionCoverage ["ab"] [⟨SearchSource.google, "ab", none⟩] =
      (([⟨SearchSource.google, "ab", none⟩] : List SearchQuestion).countP (fun q =>
        decide (∃ p ∈ (["ab"] : List String), ∃ t ∈ simpleTokenize q.text,
          t ∈ simpleTokenize p)) : ℚ) /
        ((([⟨SearchSource.google, "ab", none⟩] : List SearchQuestion).length : ℕ) : ℚ) :=
  ⟨by decide,
    (calculateQuestionCoverage_spec ["ab"] [⟨SearchSource.google, "ab", none⟩]).2.2.1
      (by decide)⟩


/-- Whitespace characters are outside the token character class. -/
theorem ws_not_allowed (c : Char) (hw : c.isWhitespace = true) : allowedChar c = false := by
  simp only [Char.isWhitespace, Bool.or_eq_true, decide_eq_true_eq] at hw
  rcases hw with ((rfl | rfl) | rfl) | rfl <;> decide

/-- Token-class characters are not whitespace. -/
theorem allowed_not_ws (c : Char) (h : allowedChar c = true) : c.isWhitespace = false := by
  cases hi : c.isWhitespace
  · rfl
  · rw [ws_not_allowed c hi] at h
    exact absurd h (by simp)

/-- Replacing runs of non-token characters by single spaces and then
splitting on whitespace runs yields exactly the maximal token-character
runs of the original list (the space introduced by the replacement is
whitespace, and token characters never are). -/
theorem splitRunsAux_collapse (l : List Char) :
    (∀ acc, (∀ c ∈ acc, allowedChar c = true) →
      splitRunsAux (fun c => !c.isWhitespace)
          (collapseRuns (fun c => !allowedChar c) l false) acc =
        splitRunsAux allowedChar l acc)
    ∧ splitRunsAux (fun c => !c.isWhitespace)
        (collapseRuns (fun c => !allowedChar c) l true) [] =
      splitRunsAux allowedChar l [] := by
  induction l with
  | nil => exact ⟨fun acc _ => rfl, rfl⟩
  | cons c cs ih =>
    rcases hb : allowedChar c with _ | _
    · have hsp : (' ').isWhitespace = true := by decide
      constructor
      · intro acc hacc
        simp only [collapseRuns, hb, Bool.not_false, if_true, splitRunsAux, hsp,
          Bool.not_true, Bool.false_eq_true, if_false]
        rw [ih.2]
      · simp only [collapseRuns, hb, Bool.not_false, if_true, splitRunsAux, hsp,
          Bool.not_true, Bool.false_eq_true, if_false, List.isEmpty_nil, if_true]
        exact ih.2
    · have hw : c.isWhitespace = false := allowed_not_ws c hb
      constructor
      · intro acc hacc
        simp only [collapseRuns, hb, Bool.not_true, Bool.false_eq_true, if_false,
          splitRunsAux, hw, Bool.not_false, if_true]
        exact ih.1 (c :: acc) (fun x hx => by
          rcases List.mem_cons.mp hx with rfl | hx
          · exact hb
          · exact hacc x hx)
      · simp only [collapseRuns, hb, Bool.not_true, Bool.false_eq_true, if_false,
          splitRunsAux, hw, Bool.not_false, if_true]
        exact ih.1 [c] (fun x hx => by
          rcases List.mem_singleton.mp hx with rfl
          exact hb)

/-- The conjunction of the stop-word filter and the three early-return
filters equals the single four-way exclusion predicate of the spec. -/
theorem tokenPred_eq (t : String) :
    (decide (t ∉ STOP_WORDS) && tokenFilter t) =
      !(decide (t.length = 1) || onlyDigits t || decide (30 ≤ t.length) ||
        decide (t ∈ STOP_WORDS)) := by
  by_cases h1 : t.length = 1 <;> by_cases h2 : onlyDigits t = true <;>
    by_cases h3 : 30 ≤ t.length <;> by_cases h4 : t ∈ STOP_WORDS <;>
      simp [tokenFilter, h1, h2, h3, h4]

/-- C6: the keyword tokenizer equals its specification — lowercase the
text, split on maximal runs of characters that are not ASCII digits, ASCII
letters or Hangul syllables, and exclude exactly the length-1 tokens, the
all-digit tokens, the tokens of length at least 30, and the members of the
fixed stop-word set. -/
theorem tokenize_eq_spec : ∀ s : String, tokenize s = tokenizeSpec s := by
  intro s
  simp only [tokenize, tokenizeSpec, splitRuns]
  rw [(splitRunsAux_collapse (s.data.map Char.toLower)).1 [] (by intro c hc; cases hc)]
  rw [List.filter_filter]
  congr 1
  funext t
  exact tokenPred_eq t

/-- The dedup loop yields a sublist of its input: original relative order
is preserved. -/
theorem dedupeAux_sublist (l : List SearchQuestion) :
    ∀ seen, (dedupeAux l seen).Sublist l := by
  induction l with
  | nil => intro seen; exact List.Sublist.refl _
  | cons q rest ih =>
    intro seen
    by_cases h : normalizeQText q.text ∈ seen
    · simp only [dedupeAux, if_pos h]
      exact (ih seen).cons q
    · simp only [dedupeAux, if_neg h]
      exact (ih _).cons₂ q

/-- The normalized texts of the dedup output are distinct, and none of
them is in the already-seen set. -/
theorem dedupeAux_keys_nodup (l : List SearchQuestion) :
    ∀ seen : List String,
      (((dedupeAux l seen).map fun q => normalizeQText q.text).Nodup)
      ∧ ∀ x ∈ (dedupeAux l seen).map fun q => normalizeQText q.text, x ∉ seen := by
  induction l with
  | nil => intro seen; exact ⟨List.nodup_nil, by simp [dedupeAux]⟩
  | cons q rest ih =>
    intro seen
    by_cases h : normalizeQText q.text ∈ seen
    · simp only [dedupeAux, if_pos h]
      exact ih seen
    · simp only [dedupeAux, if_neg h, List.map_cons]
      have iht := ih (normalizeQText q.text :: seen)
      constructor
      · refine List.nodup_cons.mpr ⟨?_, iht.1⟩
        intro hmem
        exact (iht.2 _ hmem) (List.mem_cons_self _ _)
      · intro x hx
        rcases List.mem_cons.mp hx with rfl | hx
        · exact h
        · intro hxs
          exact (iht.2 x hx) (List.mem_cons_of_mem _ hxs)

/-- Filtering out one more seen key factors through filtering the old seen
set and then the new key. -/
theorem filter_key_ne (rest : List SearchQuestion) (n : String) (seen : List String) :
    (rest.filter fun q2 => decide (normalizeQText q2.text ∉ n :: seen)) =
      (rest.filter fun q2 => decide (normalizeQText q2.text ∉ seen)).filter
        fun q2 => !(normalizeQText q2.text == n) := by
  rw [List.filter_filter]
  congr 1
  funext q2
  by_cases h1 : normalizeQText q2.text = n <;>
    by_cases h2 : normalizeQText q2.text ∈ seen <;> simp [h1, h2]

/-- The dedup loop equals the first-occurrence specification, relative to
an arbitrary set of already-seen keys. -/
theorem dedupeAux_eq_firstOccurrences (l : List SearchQuestion) :
    ∀ seen, dedupeAux l seen =
      firstOccurrences (l.filter fun q => decide (normalizeQText q.text ∉ seen)) := by
  induction l with
  | nil => intro seen; simp [dedupeAux, firstOccurrences]
  | cons q rest ih =>
    intro seen
    by_cases h : normalizeQText q.text ∈ seen
    · simp only [dedupeAux, if_pos h, List.filter_cons, h, not_true_eq_false]
      simp only [decide_False, Bool.false_eq_true, if_false]
      exact ih seen
    · have hfo : firstOccurrences
          (q :: (rest.filter fun q2 => decide (normalizeQText q2.text ∉ seen))) =
          q :: firstOccurrences
            ((rest.filter fun q2 => decide (normalizeQText q2.text ∉ seen)).filter
              fun q2 => !(normalizeQText q2.text == normalizeQText q.text)) := by
        conv_lhs => rw [firstOccurrences.eq_def]
      simp only [dedupeAux, if_neg h, List.filter_cons, h, not_false_eq_true]
      simp only [decide_True, if_true]
      rw [hfo, ih (normalizeQText q.text :: seen), filter_key_ne]
      simp

/-- C7: deduplication keys each question by its lowercased,
whitespace-collapsed, trimmed text; it keeps exactly the first occurrence
per key, preserving the original relative order; `fetchSearchQuestions`
afterwards drops every question whose raw text length is at most 5; and
the sequence it finally returns contains no two entries with equal
normalized texts. -/
theorem dedupeQuestions_spec :
    (∀ questions : List SearchQuestion,
      dedupeQuestions questions = firstOccurrences questions
      ∧ (dedupeQuestions questions).Sublist questions
      ∧ ((dedupeQuestions questions).map fun q => normalizeQText q.text).Nodup)
    ∧ (∀ (seedKeywords : List SeedKeyword) (m : ℕ),
      fetchSearchQuestions seedKeywords m =
        (dedupeQuestions (gatherQuestions seedKeywords)).filter
          fun q => decide (5 < q.text.length))
    ∧ ∀ (seedKeywords : List SeedKeyword) (m : ℕ),
      ((fetchSearchQuestions seedKeywords m).map fun q => normalizeQText q.text).Nodup := by
  have hfetch : ∀ (seedKeywords : List SeedKeyword) (m : ℕ),
      fetchSearchQuestions seedKeywords m =
        (dedupeQuestions (gatherQuestions seedKeywords)).filter
          fun q => decide (5 < q.text.length) := by
    intro ks m
    cases ks with
    | nil => rfl
    | cons k rest => rfl
  refine ⟨?_, hfetch, ?_⟩
  · intro questions
    refine ⟨?_, dedupeAux_sublist questions [], (dedupeAux_keys_nodup questions []).1⟩
    show dedupeAux questions [] = _
    rw [dedupeAux_eq_firstOccurrences questions []]
    congr 1
    exact List.filter_eq_self.mpr fun q _ => by simp
  · intro ks m
    rw [hfetch ks m]
    have hkeys := (dedupeAux_keys_nodup (gatherQuestions ks) []).1
    exact List.Nodup.sublist
      ((List.filter_sublist (dedupeQuestions (gatherQuestions ks))).map
        fun q : SearchQuestion => normalizeQText q.text) hkeys

/-- Every count produced by one bump step is positive when the existing
counts are. -/
theorem bumpCount_pos (acc : List (String × ℕ)) (t : String)
    (h : ∀ e ∈ acc, 1 ≤ e.2) : ∀ e ∈ bumpCount acc t, 1 ≤ e.2 := by
  induction acc with
  | nil =>
    intro e he
    rcases List.mem_singleton.mp he with rfl
    exact le_refl 1
  | cons p rest ih =>
    obtain ⟨s, c⟩ := p
    intro e he
    by_cases hs : s = t
    · simp only [bumpCount, if_pos hs] at he
      rcases List.mem_cons.mp he with rfl | he
      · exact Nat.le_add_left 1 c
      · exact h e (List.mem_cons_of_mem _ he)
    · simp only [bumpCount, if_neg hs] at he
      rcases List.mem_cons.mp he with rfl | he
      · exact h (s, c) (List.mem_cons_self _ _)
      · exact ih (fun e he => h e (List.mem_cons_of_mem _ he)) e he

/-- Every accumulated token count is at least 1. -/
theorem countTokens_pos (tokens : List String) :
    ∀ e ∈ countTokens tokens, 1 ≤ e.2 := by
  have key : ∀ (ts : List String) (acc : List (String × ℕ)),
      (∀ e ∈ acc, 1 ≤ e.2) → ∀ e ∈ List.foldl bumpCount acc ts, 1 ≤ e.2 := by
    intro ts
    induction ts with
    | nil =>
      intro acc h
      exact h
    | cons t rest ih =>
      intro acc h
      exact ih (bumpCount acc t) (bumpCount_pos acc t h)
  exact key tokens [] (by intro e he; cases he)

/-- The ranked top-10 keyword list satisfies the documented score
invariants: at most 10 entries, scores within [0, 1], non-increasing
scores, and a first score of exactly 1. -/
theorem seedsOfTokens_spec (tokens : List String) :
    (seedsOfTokens tokens).length ≤ 10
    ∧ (∀ k ∈ seedsOfTokens tokens, 0 ≤ k.score ∧ k.score ≤ 1)
    ∧ (seedsOfTokens tokens).Pairwise (fun a b => b.score ≤ a.score)
    ∧ ∀ k, (seedsOfTokens tokens).head? = some k → k.score = 1 := by
  have hsorted : (List.insertionSort countDescRel (countTokens tokens)).Pairwise
      countDescRel := List.sorted_insertionSort countDescRel (countTokens tokens)
  have htopsorted : ((List.insertionSort countDescRel (countTokens tokens)).take 10).Pairwise
      countDescRel := List.Pairwise.sublist (List.take_sublist 10 _) hsorted
  have htoppos : ∀ e ∈ (List.insertionSort countDescRel (countTokens tokens)).take 10,
      1 ≤ e.2 := by
    intro e he
    have he2 : e ∈ List.insertionSort countDescRel (countTokens tokens) :=
      (List.take_sublist 10 _).subset he
    exact countTokens_pos tokens e ((List.perm_insertionSort _ _).subset he2)
  rcases htop : (List.insertionSort countDescRel (countTokens tokens)).take 10 with
    _ | ⟨e0, rest⟩
  · simp only [seedsOfTokens, htop]
    refine ⟨by simp, by simp, by simp, by simp⟩
  · have hmax : ∀ e ∈ e0 :: rest, e.2 ≤ e0.2 := by
      intro e he
      rcases List.mem_cons.mp he with rfl | he
      · exact le_refl _
      · rw [htop] at htopsorted
        exact (List.pairwise_cons.mp htopsorted).1 e he
    have he0pos : 1 ≤ e0.2 := by
      rw [htop] at htoppos
      exact htoppos e0 (List.mem_cons_self _ _)
    have he0posQ : (0 : ℚ) < (e0.2 : ℚ) := by exact_mod_cast he0pos
    simp only [seedsOfTokens, htop, List.head?_cons]
    refine ⟨?_, ?_, ?_, ?_⟩
    · rw [← htop, List.length_map]
      exact List.length_take_le 10 _
    · intro k hk
      rcases List.mem_map.mp hk with ⟨e, he, rfl⟩
      constructor
      · exact div_nonneg (by positivity) (le_of_lt he0posQ)
      · rw [div_le_one he0posQ]
        exact_mod_cast hmax e he
    · rw [List.pairwise_map]
      refine List.Pairwise.imp ?_ (htop ▸ htopsorted)
      intro a b hab
      have hq : (b.2 : ℚ) ≤ (a.2 : ℚ) := by exact_mod_cast hab
      show (b.2 : ℚ) / (e0.2 : ℚ) ≤ (a.2 : ℚ) / (e0.2 : ℚ)
      gcongr
    · intro k hk
      simp only [List.map_cons, List.head?_cons, Option.some.injEq] at hk
      rw [← hk]
      exact div_self (ne_of_gt he0posQ)

/-- C4: for every meta record, headings list and body text,
`extractSeedKeywords` returns at most 10 seed keywords, every score lies
in [0, 1], the scores are non-increasing along the sequence, and the first
score equals exactly 1 whenever the sequence is non-empty. -/
theorem extractSeedKeywords_spec :
    ∀ (meta : AnalysisMeta) (headings : List String) (contentText : String),
      (extractSeedKeywords meta headings contentText).length ≤ 10
      ∧ (∀ k ∈ extractSeedKeywords meta headings contentText, 0 ≤ k.score ∧ k.score ≤ 1)
      ∧ (extractSeedKeywords meta headings contentText).Pairwise
          (fun a b => b.score ≤ a.score)
      ∧ ∀ k, (extractSeedKeywords meta headings contentText).head? = some k →
          k.score = 1 := by
  intro meta headings contentText
  simp only [extractSeedKeywords]
  split_ifs with h1 h2
  · exact ⟨by norm_num, by simp, by simp, by simp⟩
  · exact ⟨by norm_num, by simp, by simp, by simp⟩
  · exact seedsOfTokens_spec _

/-- Witness for the seed-keyword theorem at a concrete input whose token
sequence is "aa", "bb", "aa": the first returned keyword is "aa" and its
score is 1. -/
theorem extractSeedKeywords_spec_witness :
    (extractSeedKeywords ⟨none, none, none, none, none, none⟩ [] "aa bb aa").head? =
      some ⟨"aa", ((2 : ℕ) : ℚ) / ((2 : ℕ) : ℚ)⟩
    ∧ (⟨"aa", ((2 : ℕ) : ℚ) / ((2 : ℕ) : ℚ)⟩ : SeedKeyword).score = 1 :=
  ⟨rfl,
    (extractSeedKeywords_spec ⟨none, none, none, none, none, none⟩ [] "aa bb aa").2.2.2
      ⟨"aa", ((2 : ℕ) : ℚ) / ((2 : ℕ) : ℚ)⟩ rfl⟩

/-- Stability of the ranking sort: for each count value, the entries
having that count appear in the sorted list exactly as they appear in the
frequency map, i.e. in first-seen order. -/
theorem insertionSort_filter_count (cnt : List (String × ℕ)) (k : ℕ) :
    ((List.insertionSort countDescRel cnt).filter fun e => decide (e.2 = k)) =
      cnt.filter fun e => decide (e.2 = k) := by
  have hpair : (cnt.filter fun e => decide (e.2 = k)).Pairwise countDescRel := by
    apply List.pairwise_of_forall_mem_list
    intro a ha b hb
    have ha2 : a.2 = k := of_decide_eq_true (List.mem_filter.mp ha).2
    have hb2 : b.2 = k := of_decide_eq_true (List.mem_filter.mp hb).2
    show b.2 ≤ a.2
    rw [ha2, hb2]
  have hsub : List.Sublist (cnt.filter fun e => decide (e.2 = k))
      (List.insertionSort countDescRel cnt) :=
    List.sublist_insertionSort hpair (List.filter_sublist cnt)
  have hself : ((cnt.filter fun e => decide (e.2 = k)).filter fun e => decide (e.2 = k)) =
      cnt.filter fun e => decide (e.2 = k) :=
    List.filter_eq_self.mpr fun a ha => (List.mem_filter.mp ha).2
  have hsub2 : List.Sublist (cnt.filter fun e => decide (e.2 = k))
      ((List.insertionSort countDescRel cnt).filter fun e => decide (e.2 = k)) := by
    have h := hsub.filter fun e => decide (e.2 = k)
    rwa [hself] at h
  have hperm : List.Perm
      ((List.insertionSort countDescRel cnt).filter fun e => decide (e.2 = k))
      (cnt.filter fun e => decide (e.2 = k)) :=
    (List.perm_insertionSort countDescRel cnt).filter _
  exact (List.Sublist.eq_of_length hsub2 hperm.length_eq.symm).symm

/-- The keys of one bump step: an already-present key leaves the key list
unchanged, a new key is appended at the end. -/
theorem bumpCount_keys (acc : List (String × ℕ)) (t : String) :
    (bumpCount acc t).map Prod.fst =
      if t ∈ acc.map Prod.fst then acc.map Prod.fst else acc.map Prod.fst ++ [t] := by
  induction acc with
  | nil => simp [bumpCount]
  | cons p rest ih =>
    obtain ⟨s, c⟩ := p
    by_cases hs : s = t
    · subst hs
      simp [bumpCount]
    · have hs' : ¬t = s := fun hh => hs hh.symm
      simp only [bumpCount, if_neg hs, List.map_cons, ih]
      by_cases ht : t ∈ rest.map Prod.fst
      · simp [List.mem_cons, ht, hs']
      · simp [List.mem_cons, ht, hs']

/-- The keys of the frequency map are the distinct tokens in first-seen
order. -/
theorem countTokens_keys (tokens : List String) :
    (countTokens tokens).map Prod.fst = firstSeen tokens := by
  have key : ∀ (ts : List String) (acc : List (String × ℕ)),
      (List.foldl bumpCount acc ts).map Prod.fst =
        List.foldl (fun a t => if t ∈ a then a else a ++ [t]) (acc.map Prod.fst) ts := by
    intro ts
    induction ts with
    | nil =>
      intro acc
      rfl
    | cons t rest ih =>
      intro acc
      show (List.foldl bumpCount (bumpCount acc t) rest).map Prod.fst = _
      rw [ih (bumpCount acc t), bumpCount_keys]
      rfl
  exact key tokens []

/-- A list whose trim is empty consists of whitespace only. -/
theorem all_ws_of_trimChars_nil {l : List Char} (h : trimChars l = []) :
    ∀ c ∈ l, c.isWhitespace = true := by
  unfold trimChars at h
  rw [List.reverse_eq_nil_iff, List.dropWhile_eq_nil_iff] at h
  intro c hc
  have hsplit : l.takeWhile Char.isWhitespace ++ l.dropWhile Char.isWhitespace = l :=
    List.takeWhile_append_dropWhile Char.isWhitespace l
  rw [← hsplit] at hc
  rcases List.mem_append.mp hc with hc | hc
  · exact List.mem_takeWhile_imp hc
  · exact h c (List.mem_reverse.mpr hc)

/-- Lowercasing fixes whitespace characters. -/
theorem toLower_of_ws (c : Char) (h : c.isWhitespace = true) : c.toLower = c := by
  simp only [Char.isWhitespace, Bool.or_eq_true, decide_eq_true_eq] at h
  rcases h with ((rfl | rfl) | rfl) | rfl <;> decide

/-- Splitting a list none of whose characters is kept yields no runs. -/
theorem splitRunsAux_all_not_keep (keep : Char → Bool) :
    ∀ l : List Char, (∀ c ∈ l, keep c = false) → splitRunsAux keep l [] = [] := by
  intro l
  induction l with
  | nil =>
    intro _
    rfl
  | cons c cs ih =>
    intro h
    have hc := h c (List.mem_cons_self _ _)
    simp only [splitRunsAux, hc, Bool.false_eq_true, if_false, List.isEmpty_nil, if_true]
    exact ih fun x hx => h x (List.mem_cons_of_mem _ hx)

/-- A string that trims to nothing has no tokens. -/
theorem tokenize_of_trimChars_nil (s : String) (h : trimChars s.data = []) :
    tokenize s = [] := by
  have hws := all_ws_of_trimChars_nil h
  simp only [tokenize, splitRuns]
  rw [(splitRunsAux_collapse (s.data.map Char.toLower)).1 [] (by intro c hc; cases hc)]
  rw [splitRunsAux_all_not_keep allowedChar (s.data.map Char.toLower) (by
    intro c hc
    rcases List.mem_map.mp hc with ⟨c0, hc0, rfl⟩
    have hw := hws c0 hc0
    rw [toLower_of_ws c0 hw]
    exact ws_not_allowed c0 hw)]
  rfl

/-- C5: the seed-keyword values are exactly the first 10 keys of the
stable descending-count sort of the frequency map; that sorted map is a
permutation of the frequency map, its counts are non-increasing, entries
of equal count keep their frequency-map order, and the frequency-map keys
are the distinct tokens in first-seen order. -/
theorem extractSeedKeywords_ranking :
    ∀ (meta : AnalysisMeta) (headings : List String) (contentText : String),
      ((extractSeedKeywords meta headings contentText).map fun k => k.value) =
        ((List.insertionSort countDescRel
            (countTokens (tokenize (assembleText meta headings contentText)))).take 10).map
          Prod.fst
      ∧ List.Perm
          (List.insertionSort countDescRel
            (countTokens (tokenize (assembleText meta headings contentText))))
          (countTokens (tokenize (assembleText meta headings contentText)))
      ∧ (List.insertionSort countDescRel
          (countTokens (tokenize (assembleText meta headings contentText)))).Pairwise
            countDescRel
      ∧ (∀ k : ℕ,
          ((List.insertionSort countDescRel
              (countTokens (tokenize (assembleText meta headings contentText)))).filter
            fun e => decide (e.2 = k)) =
          ((countTokens (tokenize (assembleText meta headings contentText))).filter
            fun e => decide (e.2 = k)))
      ∧ (countTokens (tokenize (assembleText meta headings contentText))).map Prod.fst =
          firstSeen (tokenize (assembleText meta headings contentText)) := by
  intro meta headings contentText
  refine ⟨?_, List.perm_insertionSort _ _, List.sorted_insertionSort _ _,
    fun k => insertionSort_filter_count _ k, countTokens_keys _⟩
  simp only [extractSeedKeywords]
  split_ifs with h1 h2
  · rw [tokenize_of_trimChars_nil _ h1]
    rfl
  · rw [h2]
    rfl
  · simp only [seedsOfTokens]
    rw [List.map_map]
    rfl
